import Mathlib

/-!
Verification of the shellfs core (src/main.rs): the path-to-inode tree builder
(`insert_path`, `ShellFS::items`) and the four virtual-filesystem request
handlers (`lookup`, `getattr`, `read`, `readdir`).

Modelling conventions:

* A filesystem path is modelled by its list of `std::path` components
  (`PathComp`: `RootDir`, a leading `CurDir`, `ParentDir`, `Normal`), stored
  innermost-first: the Rust path `a/b/c` is `[.name "c", .name "b", .name "a"]`
  and `/a` is `[.name "a", .root]`.  Rust path equality is component-list
  equality; under the innermost-first order `Path::parent()` drops the head
  (`None` exactly for the empty path `[]` and the root `[.root]`), and
  `Path::file_name()` (`comp_file_name`) is the head when it is a `Normal`
  component and `none` otherwise — in particular for `..`-terminated paths.
* Parsing a listing line follows `Path::components()`: `/`-separated
  segments, empty segments dropped, a leading `/` giving `RootDir`, `.`
  segments dropped except a leading one (`CurDir`), `..` giving `ParentDir`.
* The empty component list `[]` is the empty path `""` (the sentinel's
  `PathBuf::from("")`); the program never inserts it, since listing lines
  are non-empty and the parent recursion stops at the sentinel, but
  `insert_path` models the push it would perform.
* The external listing collaborator is modelled by its standard-output
  string; the external transform collaborator by a function from the queried
  path to its output bytes (bytes as `Nat`).
* Machine-integer behaviour that matters is modelled explicitly: the i64
  wrap-around of `offset + size as i64` in `read` (release-mode semantics),
  and the u64-to-usize cast of a possibly negative readdir offset.  Rust
  panics (index underflow at inode id 0, the `.expect` on a missing file
  name in `lookup`, out-of-bounds slicing in `read`) are modelled as `none`
  results: the handler aborts without replying.
* Each handler returns, next to its reply, a `Counts` record of how many
  times it invoked the external listing and transform collaborators; every
  occurrence of `self.items()` / `self.transform(..)` in the Rust source
  increments the corresponding field.
-/

deriving instance DecidableEq for Except

/-- One `std::path::Component` of a Unix path: `RootDir`, `CurDir` (kept
only at the front of a relative path), `ParentDir` (`..`), or a normal
name. -/
inductive PathComp
  | root
  | cur
  | up
  | name (s : String)
deriving DecidableEq, Repr

/-- Translation of `Path::file_name()`: the final component (the head,
innermost-first) when it is a normal name, and `none` otherwise — for the
empty path, the root, and `.`- or `..`-terminated paths. -/
def comp_file_name : List PathComp → Option String
  | PathComp.name s :: _ => some s
  | _ => none

/-- The two file kinds the program uses (`fuse::FileType`). -/
inductive FileType
  | Directory
  | RegularFile
deriving DecidableEq, Repr

/-- One entry of the inode table (`struct Inode` in main.rs). -/
structure Inode where
  path : List PathComp
  kind : FileType
  parent_inode : Nat
deriving DecidableEq, Repr

/-- The sentinel root record that `ShellFS::items` places at position 0:
`Inode { path: PathBuf::from(""), kind: Directory, parent_inode: 0 }` (the
empty path has no components). -/
def root_inode : Inode :=
  { path := [], kind := FileType.Directory, parent_inode := 0 }

/-- The attribute record synthesized by `fn attr(ino, kind)` in main.rs:
fixed nominal size, epoch timestamps (seconds 0), mode `0o644`. -/
structure FileAttr where
  ino : Nat
  size : Nat
  blocks : Nat
  atime : Nat
  mtime : Nat
  ctime : Nat
  crtime : Nat
  kind : FileType
  perm : Nat
  nlink : Nat
  uid : Nat
  gid : Nat
  rdev : Nat
  flags : Nat
deriving DecidableEq, Repr

/-- Translation of `fn attr(ino: u64, kind: FileType) -> FileAttr`. -/
def attr (ino : Nat) (kind : FileType) : FileAttr :=
  { ino := ino, size := 1000000000000, blocks := 1,
    atime := 0, mtime := 0, ctime := 0, crtime := 0,
    kind := kind, perm := 0o644, nlink := 1,
    uid := 0, gid := 0, rdev := 0, flags := 0 }

/-- Invocation counts for the two external collaborators during one request. -/
structure Counts where
  listing : Nat
  transform : Nat
deriving DecidableEq, Repr

/-- The linear scan `inode_map.iter().enumerate().find(|(_, e)| e.path == parent)`
inside `insert_path`: index of the first entry with the given path. -/
def find_path : List Inode → List PathComp → Option Nat
  | [], _ => none
  | x :: rest, p =>
    if x.path = p then some 0 else (find_path rest p).map (· + 1)

/-- Translation of `fn insert_path(inode_map, path, kind) -> u64`.

`Path::parent()` is `None` exactly for the empty path and `/`; every other
path's parent is the path minus its final component, i.e. the tail under the
innermost-first representation.  The parent id is the table position + 1 of
the first entry whose path equals the parent; if the parent is absent it is
inserted recursively as a directory first.  The guard
`path != "/" && path != "."` then skips the push for exactly `[.root]` and
`[.cur]` (returning 1); every other path — including the empty one, which
the program never passes — is appended and its id (the new table length)
returned. -/
def insert_path (m : List Inode) (p : List PathComp) (k : FileType) :
    List Inode × Nat :=
  match p with
  | [] =>
    (m ++ [{ path := [], kind := k, parent_inode := 1 }], m.length + 1)
  | _ :: parent =>
    if p = [PathComp.root] then (m, 1)
    else
      let pr : List Inode × Nat :=
        match find_path m parent with
        | some i => (m, i + 1)
        | none => insert_path m parent FileType.Directory
      if p = [PathComp.cur] then (pr.1, 1)
      else (pr.1 ++ [{ path := p, kind := k, parent_inode := pr.2 }],
            pr.1.length + 1)

/-- One step of the `for path in ..` loop in `ShellFS::items`: insert one
listed path as a regular file. -/
def ins_file (m : List Inode) (p : List PathComp) : List Inode :=
  (insert_path m p FileType.RegularFile).1

/-- The inode table built from an already-parsed list of paths: the sentinel
root record followed by the fold of `insert_path` over the listed paths. -/
def build_items (paths : List (List PathComp)) : List Inode :=
  paths.foldl ins_file [root_inode]

/-- Splitting a character sequence at a separator, as `slice::split` does in
`ShellFS::items` (`stdout.split(|c| *c == b'\n')`): keeps empty segments,
including a trailing one. -/
def split_on (sep : Char) : List Char → List (List Char)
  | [] => [[]]
  | c :: rest =>
    if c = sep then [] :: split_on sep rest
    else
      match split_on sep rest with
      | [] => [[c]]
      | l :: ls => (c :: l) :: ls

/-- One non-empty, non-`"."` path segment as a component: `".."` is
`ParentDir`, everything else a normal name. -/
def parse_seg (cs : List Char) : PathComp :=
  if cs = ['.', '.'] then PathComp.up else PathComp.name (String.mk cs)

/-- Interpreting one listing line as its `Path::components()` list, stored
innermost-first: a leading `/` contributes `RootDir`; otherwise a leading
`.` segment contributes `CurDir`; empty and remaining `.` segments are
dropped; `..` segments are `ParentDir` and the rest normal names. -/
def parse_path (line : List Char) : List PathComp :=
  let segs := split_on '/' line
  let kept := (segs.filter (fun cs => cs ≠ [] ∧ cs ≠ ['.'])).map parse_seg
  ((if line.head? = some '/' then [PathComp.root]
    else if segs.head? = some ['.'] then [PathComp.cur]
    else []) ++ kept).reverse

/-- The non-empty lines of the listing output
(`stdout.split(b'\n') ... filter(|s| !s.is_empty())`). -/
def listing_lines (stdout : String) : List (List Char) :=
  (split_on '\n' stdout.data).filter (fun cs => cs ≠ [])

/-- The listed paths of one listing output, in order. -/
def listingPaths (stdout : String) : List (List PathComp) :=
  (listing_lines stdout).map parse_path

/-- Translation of `ShellFS::items`: the inode table freshly built from the
external listing output. -/
def items (stdout : String) : List Inode :=
  build_items (listingPaths stdout)

/-- The scan loop of `Filesystem::lookup`: iterate over the table with its
index; on the first entry whose `parent_inode` matches, take the path's file
name — aborting (`none`) like the Rust `.expect` if there is none — and on a
name match reply with the entry id and attributes.  Falling off the end
replies `ENOENT` (modelled `Except.error ()`). -/
def lookup_scan : List Inode → Nat → Nat → String → Option (Except Unit FileAttr)
  | [], _, _, _ => some (Except.error ())
  | x :: rest, idx, parent, name =>
    if x.parent_inode = parent then
      match comp_file_name x.path with
      | none => none
      | some fn =>
        if fn = name then some (Except.ok (attr (idx + 1) x.kind))
        else lookup_scan rest (idx + 1) parent name
    else lookup_scan rest (idx + 1) parent name

/-- Translation of `Filesystem::lookup for ShellFS` (one `self.items()`
invocation, then the pure scan). -/
def lookup (stdout : String) (parent : Nat) (name : String) :
    Option (Except Unit FileAttr) × Counts :=
  (lookup_scan (items stdout) 0 parent name, { listing := 1, transform := 0 })

/-- Translation of `Filesystem::getattr for ShellFS`.  The handler invokes
`self.items()` once for the length test and — in the in-range branch — a
second time to index the table (`&self.items()[ino as usize - 1]`), so that
branch counts two listing invocations.  For `ino = 0` the index
`ino as usize - 1` underflows and the handler aborts (`none`). -/
def getattr (stdout : String) (ino : Nat) :
    Option (Except Unit FileAttr) × Counts :=
  let tbl := items stdout
  if ino ≤ tbl.length then
    match ino, (items stdout)[ino - 1]? with
    | 0, _ => (none, { listing := 2, transform := 0 })
    | _ + 1, some item =>
      (some (Except.ok (attr ino item.kind)), { listing := 2, transform := 0 })
    | _ + 1, none => (none, { listing := 2, transform := 0 })
  else (some (Except.error ()), { listing := 1, transform := 0 })

/-- Two's-complement wrap-around of an integer into the i64 range, modelling
release-mode overflow of `offset + size as i64` in `read`. -/
def i64_wrap (x : Int) : Int :=
  (x + 2 ^ 63) % 2 ^ 64 - 2 ^ 63

/-- Translation of `Filesystem::read for ShellFS` (named `fs_read` here only
because a bare `read` collides with a core library alias).  One `self.items()`
invocation; out-of-range ids reply `ENOENT`; id 0 aborts on index underflow.
Otherwise one `self.transform` invocation produces the data, the bounds
`from = (len-1).min(offset).max(0)` and `to = len.min(offset + size).max(0)`
are computed in i64 arithmetic, and the slice `data[from..to]` is replied —
aborting (`none`) when `from > to`, as the Rust slice indexing would. -/
def fs_read (stdout : String) (tf : List PathComp → List Nat) (ino : Nat)
    (offset : Int) (size : Nat) : Option (Except Unit (List Nat)) × Counts :=
  let tbl := items stdout
  if ino > tbl.length then
    (some (Except.error ()), { listing := 1, transform := 0 })
  else
    match ino, tbl[ino - 1]? with
    | 0, _ => (none, { listing := 1, transform := 0 })
    | _ + 1, none => (none, { listing := 1, transform := 0 })
    | _ + 1, some item =>
      let data := tf item.path
      let lo : Int := max (min ((data.length : Int) - 1) offset) 0
      let hi : Int := max (min (data.length : Int) (i64_wrap (offset + (size : Int)))) 0
      if lo.toNat ≤ hi.toNat then
        (some (Except.ok ((data.take hi.toNat).drop lo.toNat)),
         { listing := 1, transform := 1 })
      else (none, { listing := 1, transform := 1 })

/-- The u64-to-usize cast of the readdir offset (`offset as usize`): a
negative i64 wraps to a huge unsigned value. -/
def usize_of_int (x : Int) : Nat :=
  (x % 2 ^ 64).toNat

/-- Translation of `Filesystem::readdir for ShellFS`.  One `self.items()`
invocation; ids greater than the table length reply `ENOENT`.  Otherwise the
entry list is `.` and `..` (pointing at `ino`) followed by, for each table
entry with `parent_inode == ino` in order, its id, kind and file name — the
`if let Some(name)` skips entries whose `file_name()` is `None` (the root
sentinel and `..`-terminated paths).  The entries are enumerated, the first
`offset as usize` of them skipped, and each emitted as
`(entry id, position + 1, kind, name)` — position + 1 being the cursor the
source passes to `reply.add`. -/
def readdir (stdout : String) (ino : Nat) (offset : Int) :
    Except Unit (List (Nat × Nat × FileType × String)) × Counts :=
  let tbl := items stdout
  if ino > tbl.length then
    (Except.error (), { listing := 1, transform := 0 })
  else
    let base : List (Nat × FileType × String) :=
      [(ino, FileType.Directory, "."), (ino, FileType.Directory, "..")]
    let children : List (Nat × FileType × String) :=
      (tbl.enum.filter (fun ix => decide (ix.2.parent_inode = ino))).filterMap
        (fun ix => (comp_file_name ix.2.path).map (fun name => (ix.1 + 1, ix.2.kind, name)))
    let entries := base ++ children
    (Except.ok (((entries.enum.drop (usize_of_int offset)).map
        (fun ie => (ie.2.1, ie.1 + 1, ie.2.2.1, ie.2.2.2)))),
     { listing := 1, transform := 0 })

/-! ### Invariants of the inode table -/

/-- Well-formedness of an inode table: position 0 holds the sentinel root and
every later entry has a non-empty path and a parent id between 1 and its own
position (so parents sit strictly earlier in the table). -/
def Wf (m : List Inode) : Prop :=
  m[0]? = some root_inode ∧
  ∀ j x, m[j]? = some x → 1 ≤ j →
    (x.path ≠ [] ∧ 1 ≤ x.parent_inode ∧ x.parent_inode ≤ j)

/-- The parent-link invariant: every non-root entry's parent id points at an
entry whose path is the entry's parent path (its tail, innermost-first). -/
def WfL (m : List Inode) : Prop :=
  ∀ j x, m[j]? = some x → 1 ≤ j →
    ∃ y, m[x.parent_inode - 1]? = some y ∧ y.path = x.path.tail

/-- At most one directory entry per path: the claim that ancestor synthesis
never duplicates a directory. -/
def DirNodup (m : List Inode) : Prop :=
  ∀ (j₁ j₂ : Nat) (x y : Inode), m[j₁]? = some x → m[j₂]? = some y →
    x.kind = FileType.Directory → y.kind = FileType.Directory → x.path = y.path → j₁ = j₂

/-- Every non-root entry's path starts (innermost-first) with a normal name
or a `..` component. -/
def HeadsOk (m : List Inode) : Prop :=
  ∀ j x, m[j]? = some x → 1 ≤ j →
    (∃ s rest, x.path = PathComp.name s :: rest) ∨ (∃ rest, x.path = PathComp.up :: rest)

/-! ### Specification-side functions for the claims -/

/-- The first entry, in table order, whose parent id and file name match — a
direct rendering of the specification's description of `lookup`. -/
def find_child (l : List Inode) (parent : Nat) (name : String) : Option (Nat × Inode) :=
  match l with
  | [] => none
  | x :: rest =>
    if x.parent_inode = parent ∧ comp_file_name x.path = some name then some (0, x)
    else (find_child rest parent name).map (fun ji => (ji.1 + 1, ji.2))

/-! ### The read clamp and the readdir entry list -/

/-- Clamping an integer into an interval, as in the specification's
`clamp(x, lo, hi)`. -/
def clampI (x lo hi : Int) : Int :=
  max lo (min x hi)

/-- The byte range the specification prescribes for `read`: the sub-range
`[clamp(offset, 0, len-1), clamp(offset+size, 0, len)]` of the data. -/
def read_range (data : List Nat) (offset : Int) (size : Nat) : List Nat :=
  (data.take (clampI (offset + (size : Int)) 0 (data.length : Int)).toNat).drop
    (clampI offset 0 ((data.length : Int) - 1)).toNat

/-- The entry list the specification prescribes for `readdir id offset`:
`.` and `..` pointing at the id, then every table entry whose parent is the
id, in table order, with its id, kind and file name (an entry without a file
name — the root sentinel or a `..`-terminated path — cannot be reported with
one and is skipped, mirroring the handler's `if let`); each entry is emitted
with a cursor equal to its position + 1, and the entries before position
`offset` are dropped. -/
def readdir_spec (tbl : List Inode) (ino : Nat) (offset : Nat) :
    List (Nat × Nat × FileType × String) :=
  let children : List (Nat × FileType × String) :=
    tbl.enum.filterMap (fun ix =>
      if ix.2.parent_inode = ino then
        (comp_file_name ix.2.path).map (fun name => (ix.1 + 1, ix.2.kind, name))
      else none)
  let entries := [(ino, FileType.Directory, "."), (ino, FileType.Directory, "..")] ++ children
  ((entries.enum.map (fun ie => (ie.2.1, ie.1 + 1, ie.2.2.1, ie.2.2.2))).drop offset)

/-- Whether a component is a normal name (used to state, decidably, that a
listing contains only plain names). -/
def comp_is_name : PathComp → Bool
  | PathComp.name _ => true
  | _ => false

/-! ### Test fixture: a ten-byte transform output -/

/-- Ten bytes of transform output, as in the specification's read-clamping
example. -/
def bytes10 : List Nat := [0, 1, 2, 3, 4, 5, 6, 7, 8, 9]

/-- A transform collaborator producing `bytes10` for every path. -/
def tf10 : List PathComp → List Nat := fun _ => bytes10

/-! ### Basic facts about indexing, the path scan and parsing -/

/-- Indexing into a list extended by one element on the right. -/
theorem getElem?_snoc {α : Type} (l : List α) (a : α) (j : Nat) :
    (l ++ [a])[j]? = if j < l.length then l[j]? else if j = l.length then some a else none := by
  rcases Nat.lt_trichotomy j l.length with h | h | h
  · simp [List.getElem?_append_left h, h]
  · subst h
    simp [List.getElem?_concat_length]
  · have h1 : ¬ j < l.length := Nat.not_lt.mpr (Nat.le_of_lt h)
    have h2 : j ≠ l.length := Nat.ne_of_gt h
    have h3 : (l ++ [a]).length ≤ j := by
      simp [List.length_append]
      omega
    simp [List.getElem?_eq_none h3, h1, h2]

/-- A successful index is within bounds. -/
theorem getElem?_some_lt {α : Type} {l : List α} {i : Nat} {x : α}
    (h : l[i]? = some x) : i < l.length := by
  by_contra hn
  rw [List.getElem?_eq_none (Nat.not_lt.mp hn)] at h
  exact Option.noConfusion h

/-- In a duplicate-free list, an element occurs at only one index. -/
theorem nodup_index_inj {α : Type} {l : List α} (h : l.Nodup) :
    ∀ {i j : Nat} {a : α}, l[i]? = some a → l[j]? = some a → i = j := by
  induction l with
  | nil => intro i j a hi _; simp at hi
  | cons b t ih =>
    intro i j a hi hj
    rcases List.nodup_cons.mp h with ⟨hb, ht⟩
    match i, j with
    | 0, 0 => rfl
    | 0, j + 1 =>
      rw [List.getElem?_cons_zero] at hi
      rw [List.getElem?_cons_succ] at hj
      cases hi
      exact absurd (List.getElem?_mem hj) hb
    | i + 1, 0 =>
      rw [List.getElem?_cons_zero] at hj
      rw [List.getElem?_cons_succ] at hi
      cases hj
      exact absurd (List.getElem?_mem hi) hb
    | i + 1, j + 1 =>
      rw [List.getElem?_cons_succ] at hi hj
      exact congrArg Nat.succ (ih ht hi hj)

/-- A successful `find_path` returns the index of an entry with the sought path. -/
theorem find_path_some : ∀ {m : List Inode} {p : List PathComp} {i : Nat},
    find_path m p = some i → ∃ x, m[i]? = some x ∧ x.path = p := by
  intro m
  induction m with
  | nil => intro p i h; simp [find_path] at h
  | cons a t ih =>
    intro p i h
    by_cases hap : a.path = p
    · simp [find_path, hap] at h
      subst h
      exact ⟨a, List.getElem?_cons_zero, hap⟩
    · simp [find_path, hap] at h
      obtain ⟨j, hj, rfl⟩ := h
      obtain ⟨x, hx, hxp⟩ := ih hj
      exact ⟨x, by simpa [List.getElem?_cons_succ] using hx, hxp⟩

/-- A failing `find_path` means no entry has the sought path. -/
theorem find_path_none : ∀ {m : List Inode} {p : List PathComp},
    find_path m p = none → ∀ x ∈ m, x.path ≠ p := by
  intro m
  induction m with
  | nil => intro p _ x hx; simp at hx
  | cons a t ih =>
    intro p h x hx
    by_cases hap : a.path = p
    · simp [find_path, hap] at h
    · simp [find_path, hap] at h
      rcases List.mem_cons.mp hx with rfl | hxt
      · exact hap
      · exact ih h x hxt

/-- A defined file name pins the final component down to that name. -/
theorem comp_file_name_eq_some {q : List PathComp} {s : String}
    (h : comp_file_name q = some s) : ∃ t, q = PathComp.name s :: t := by
  match q with
  | [] => exact Option.noConfusion h
  | PathComp.root :: t => exact Option.noConfusion h
  | PathComp.cur :: t => exact Option.noConfusion h
  | PathComp.up :: t => exact Option.noConfusion h
  | PathComp.name s' :: t =>
    injection h with h
    exact ⟨t, by rw [h]⟩

/-- `split_on` never returns the empty list of segments. -/
theorem split_on_ne_nil (sep : Char) : ∀ l : List Char, split_on sep l ≠ [] := by
  intro l
  induction l with
  | nil => simp [split_on]
  | cons c rest ih =>
    by_cases hc : c = sep
    · simp [split_on, hc]
    · rw [split_on, if_neg hc]
      rcases hs : split_on sep rest with _ | ⟨l1, ls⟩
      · simp
      · simp

/-- The first segment of a line not starting with the separator starts with
the line's first character. -/
theorem split_on_head {sep c : Char} (rest : List Char) (hc : c ≠ sep) :
    ∃ s t, split_on sep (c :: rest) = (c :: s) :: t := by
  rw [split_on, if_neg hc]
  rcases hs : split_on sep rest with _ | ⟨l1, ls⟩
  · exact ⟨[], [], rfl⟩
  · exact ⟨l1, ls, rfl⟩

/-- A non-empty listing line parses to a non-empty component list. -/
theorem parse_path_ne_nil {line : List Char} (h : line ≠ []) :
    parse_path line ≠ [] := by
  match line, h with
  | c :: rest, _ =>
    by_cases hc : c = '/'
    · subst hc
      simp [parse_path]
    · obtain ⟨s, t, hst⟩ := split_on_head rest hc
      by_cases hdot : c :: s = ['.']
      · have hhead : (split_on '/' (c :: rest)).head? = some ['.'] := by
          rw [hst]
          simp [hdot]
        have hslash : ¬ (c :: rest).head? = some '/' := by
          simp
          intro hcc
          rw [hcc] at hdot
          injection hdot with h1 _
          exact absurd h1 (by decide)
        simp [parse_path, hhead, hslash]
        intro _
        rw [if_neg hc]
        simp
      · have hmem : (c :: s) ∈ (split_on '/' (c :: rest)).filter
            (fun cs => cs ≠ [] ∧ cs ≠ ['.']) := by
          rw [hst]
          refine List.mem_filter.mpr ⟨List.mem_cons_self _ _, ?_⟩
          simp [hdot]
        intro hnil
        rw [parse_path] at hnil
        simp only [List.reverse_eq_nil_iff, List.append_eq_nil] at hnil
        have : parse_seg (c :: s) ∈
            ((split_on '/' (c :: rest)).filter (fun cs => cs ≠ [] ∧ cs ≠ ['.'])).map parse_seg :=
          List.mem_map_of_mem parse_seg hmem
        rw [hnil.2] at this
        simp at this

theorem Wf.length_pos {m : List Inode} (h : Wf m) : 0 < m.length :=
  getElem?_some_lt h.1

/-- In a well-formed table the scan for the empty path stops at the sentinel. -/
theorem find_path_nil_of_wf {m : List Inode} (hw : Wf m) : find_path m [] = some 0 := by
  match m, hw.1 with
  | [], h1 => simp at h1
  | x :: rest, h1 =>
    rw [List.getElem?_cons_zero] at h1
    injection h1 with h1
    rw [find_path, if_pos (by rw [h1]; rfl)]

/-- Every path present after an insertion was either present before or is an
ancestor (a suffix, innermost-first) of the inserted path. -/
theorem insert_path_sub : ∀ (p : List PathComp) (m : List Inode) (k : FileType),
    ∀ q ∈ (insert_path m p k).1.map Inode.path, q ∈ m.map Inode.path ∨ q <:+ p := by
  intro p
  induction p with
  | nil =>
    intro m k q hq
    simp only [insert_path, List.map_append, List.map_cons, List.map_nil] at hq
    rcases List.mem_append.mp hq with hq1 | hq2
    · exact Or.inl hq1
    · rcases List.mem_singleton.mp hq2 with rfl
      exact Or.inr List.nil_suffix
  | cons c parent ih =>
    intro m k q hq
    by_cases hroot : c :: parent = [PathComp.root]
    · simp only [insert_path, if_pos hroot] at hq
      exact Or.inl hq
    · rcases hf : find_path m parent with _ | i
      · by_cases hcur : c :: parent = [PathComp.cur]
        · simp only [insert_path, if_neg hroot, hf, if_pos hcur] at hq
          rcases ih m FileType.Directory q hq with hold | hsuf
          · exact Or.inl hold
          · exact Or.inr (hsuf.trans (List.suffix_cons c parent))
        · simp only [insert_path, if_neg hroot, hf, if_neg hcur, List.map_append,
            List.map_cons, List.map_nil] at hq
          rcases List.mem_append.mp hq with hq1 | hq2
          · rcases ih m FileType.Directory q hq1 with hold | hsuf
            · exact Or.inl hold
            · exact Or.inr (hsuf.trans (List.suffix_cons c parent))
          · rcases List.mem_singleton.mp hq2 with rfl
            exact Or.inr (List.suffix_refl _)
      · by_cases hcur : c :: parent = [PathComp.cur]
        · simp only [insert_path, if_neg hroot, hf, if_pos hcur] at hq
          exact Or.inl hq
        · simp only [insert_path, if_neg hroot, hf, if_neg hcur, List.map_append,
            List.map_cons, List.map_nil] at hq
          rcases List.mem_append.mp hq with hq1 | hq2
          · exact Or.inl hq1
          · rcases List.mem_singleton.mp hq2 with rfl
            exact Or.inr (List.suffix_refl _)

/-- Inserting a non-empty path preserves well-formedness; the table only
grows at the end, and the returned id is a valid id of the new table. -/
theorem insert_path_wf : ∀ (p : List PathComp) (m : List Inode) (k : FileType),
    p ≠ [] → Wf m →
    (∃ t, (insert_path m p k).1 = m ++ t) ∧ Wf (insert_path m p k).1 ∧
    1 ≤ (insert_path m p k).2 ∧ (insert_path m p k).2 ≤ (insert_path m p k).1.length := by
  intro p
  induction p with
  | nil => intro m k hne _; exact absurd rfl hne
  | cons c parent ih =>
    intro m k _ hw
    have push_case : ∀ (m₂ : List Inode) (pid : Nat), Wf m₂ → 1 ≤ pid → pid ≤ m₂.length →
        Wf (m₂ ++ [{ path := c :: parent, kind := k, parent_inode := pid }]) := by
      intro m₂ pid hw₂ h1 h2
      constructor
      · rw [List.getElem?_append_left (Nat.lt_of_lt_of_le hw₂.length_pos (Nat.le_refl _))]
        exact hw₂.1
      · intro j x hx hj
        rw [getElem?_snoc] at hx
        by_cases hlt : j < m₂.length
        · rw [if_pos hlt] at hx
          exact hw₂.2 j x hx hj
        · rw [if_neg hlt] at hx
          by_cases heq : j = m₂.length
          · rw [if_pos heq] at hx
            cases hx
            refine ⟨by simp, ?_, ?_⟩ <;> dsimp only <;> omega
          · rw [if_neg heq] at hx
            exact Option.noConfusion hx
    by_cases hroot : c :: parent = [PathComp.root]
    · simp only [insert_path, if_pos hroot]
      exact ⟨⟨[], by simp⟩, hw, le_refl 1, hw.length_pos⟩
    · rcases hf : find_path m parent with _ | i
      · have hpne : parent ≠ [] := by
          intro hnil
          rw [hnil, find_path_nil_of_wf hw] at hf
          exact Option.noConfusion hf
        obtain ⟨⟨t, ht⟩, hw₂, hp1, hp2⟩ := ih m FileType.Directory hpne hw
        by_cases hcur : c :: parent = [PathComp.cur]
        · simp only [insert_path, if_neg hroot, hf, if_pos hcur]
          exact ⟨⟨t, ht⟩, hw₂, le_refl 1, hw₂.length_pos⟩
        · simp only [insert_path, if_neg hroot, hf, if_neg hcur]
          refine ⟨⟨t ++ [_], by rw [ht, List.append_assoc]⟩,
            push_case _ _ hw₂ hp1 hp2, ?_, ?_⟩
          · omega
          · simp [List.length_append]
      · have hi : i < m.length := getElem?_some_lt (find_path_some hf).choose_spec.1
        by_cases hcur : c :: parent = [PathComp.cur]
        · simp only [insert_path, if_neg hroot, hf, if_pos hcur]
          exact ⟨⟨[], by simp⟩, hw, le_refl 1, hw.length_pos⟩
        · simp only [insert_path, if_neg hroot, hf, if_neg hcur]
          refine ⟨⟨[_], rfl⟩, push_case m (i + 1) hw (by omega) (by omega), ?_, ?_⟩
          · omega
          · simp [List.length_append]

/-- Inserting a non-empty path free of root and leading-dot components
preserves the parent-link invariant, and the returned id points at an entry
carrying exactly the inserted path. -/
theorem insert_path_link : ∀ (p : List PathComp) (m : List Inode) (k : FileType),
    Wf m → WfL m → p ≠ [] → PathComp.root ∉ p → PathComp.cur ∉ p →
    WfL (insert_path m p k).1 ∧
    ∃ y, (insert_path m p k).1[(insert_path m p k).2 - 1]? = some y ∧ y.path = p := by
  intro p
  induction p with
  | nil => intro m k _ _ hne _ _; exact absurd rfl hne
  | cons c parent ih =>
    intro m k hw hl _ hroot hcur
    have hrootne : c :: parent ≠ [PathComp.root] := by
      intro hc
      injection hc with h1 h2
      exact hroot (h1 ▸ List.mem_cons_self c parent)
    have hcurne : c :: parent ≠ [PathComp.cur] := by
      intro hc
      injection hc with h1 h2
      exact hcur (h1 ▸ List.mem_cons_self c parent)
    have push_case : ∀ (m₂ : List Inode) (pid : Nat) (y₂ : Inode),
        Wf m₂ → WfL m₂ → m₂[pid - 1]? = some y₂ → y₂.path = parent →
        pid ≤ m₂.length →
        WfL (m₂ ++ [{ path := c :: parent, kind := k, parent_inode := pid }]) ∧
        ∃ y, (m₂ ++ [{ path := c :: parent, kind := k, parent_inode := pid }])[(m₂.length + 1) - 1]? = some y ∧
          y.path = c :: parent := by
      intro m₂ pid y₂ hw₂ hl₂ hy₂ hy₂p hpid
      constructor
      · intro j x hx hj
        rw [getElem?_snoc] at hx
        by_cases hlt : j < m₂.length
        · rw [if_pos hlt] at hx
          obtain ⟨y, hy, hyp⟩ := hl₂ j x hx hj
          have hb : x.parent_inode ≤ j := (hw₂.2 j x hx hj).2.2
          refine ⟨y, ?_, hyp⟩
          rw [List.getElem?_append_left (by omega)]
          exact hy
        · rw [if_neg hlt] at hx
          by_cases heq : j = m₂.length
          · rw [if_pos heq] at hx
            injection hx with hx
            subst hx
            refine ⟨y₂, ?_, hy₂p⟩
            dsimp only
            rw [List.getElem?_append_left (by omega)]
            exact hy₂
          · rw [if_neg heq] at hx
            exact Option.noConfusion hx
      · refine ⟨{ path := c :: parent, kind := k, parent_inode := pid }, ?_, rfl⟩
        have e : m₂.length + 1 - 1 = m₂.length := by omega
        rw [e, List.getElem?_concat_length]
    rcases hf : find_path m parent with _ | i
    · have hpne : parent ≠ [] := by
        intro hnil
        rw [hnil, find_path_nil_of_wf hw] at hf
        exact Option.noConfusion hf
      obtain ⟨⟨t, ht⟩, hw₂, hp1, hp2⟩ := insert_path_wf parent m FileType.Directory hpne hw
      obtain ⟨hl₂, y₂, hy₂, hy₂p⟩ := ih m FileType.Directory hw hl hpne
        (fun hmem => hroot (List.mem_cons_of_mem c hmem))
        (fun hmem => hcur (List.mem_cons_of_mem c hmem))
      simp only [insert_path, if_neg hrootne, hf, if_neg hcurne]
      exact push_case _ _ _ hw₂ hl₂ hy₂ hy₂p hp2
    · obtain ⟨x₀, hx₀, hx₀p⟩ := find_path_some hf
      have hi : i < m.length := getElem?_some_lt hx₀
      simp only [insert_path, if_neg hrootne, hf, if_neg hcurne]
      have hx₀' : m[i + 1 - 1]? = some x₀ := by
        have e : i + 1 - 1 = i := by omega
        rw [e]
        exact hx₀
      exact push_case m (i + 1) x₀ hw hl hx₀' hx₀p (by omega)

/-- Appending a fresh element keeps a list duplicate-free. -/
theorem nodup_snoc {α : Type} {l : List α} {a : α} (h : l.Nodup) (ha : a ∉ l) :
    (l ++ [a]).Nodup := by
  rw [List.nodup_append]
  exact ⟨h, List.nodup_singleton a, fun x hx hx1 => ha ((List.mem_singleton.mp hx1) ▸ hx)⟩

/-- Inserting a path that is either absent or not pushed (the root `/` or
`.`) keeps the table's paths duplicate-free. -/
theorem insert_path_nodup : ∀ (p : List PathComp) (m : List Inode) (k : FileType),
    (m.map Inode.path).Nodup →
    (p ∉ m.map Inode.path ∨ p = [PathComp.root] ∨ p = [PathComp.cur]) →
    ((insert_path m p k).1.map Inode.path).Nodup := by
  intro p
  induction p with
  | nil =>
    intro m k hn hp
    have hmem : ([] : List PathComp) ∉ m.map Inode.path := by
      rcases hp with hp | hp | hp
      · exact hp
      · exact absurd hp (by simp)
      · exact absurd hp (by simp)
    simp only [insert_path, List.map_append, List.map_cons, List.map_nil]
    exact nodup_snoc hn hmem
  | cons c parent ih =>
    intro m k hn hp
    by_cases hroot : c :: parent = [PathComp.root]
    · simp only [insert_path, if_pos hroot]
      exact hn
    · rcases hf : find_path m parent with _ | i
      · have hpar : parent ∉ m.map Inode.path := by
          intro hmem2
          obtain ⟨x, hx, hxp⟩ := List.mem_map.mp hmem2
          exact find_path_none hf x hx hxp
        have hn₂ := ih m FileType.Directory hn (Or.inl hpar)
        by_cases hcur : c :: parent = [PathComp.cur]
        · simp only [insert_path, if_neg hroot, hf, if_pos hcur]
          exact hn₂
        · have hmem : c :: parent ∉ m.map Inode.path := by
            rcases hp with hp | hp | hp
            · exact hp
            · exact absurd hp hroot
            · exact absurd hp hcur
          simp only [insert_path, if_neg hroot, hf, if_neg hcur, List.map_append,
            List.map_cons, List.map_nil]
          refine nodup_snoc hn₂ ?_
          intro hmem2
          rcases insert_path_sub parent m FileType.Directory _ hmem2 with hold | hsuf
          · exact hmem hold
          · have := hsuf.length_le
            simp at this
      · by_cases hcur : c :: parent = [PathComp.cur]
        · simp only [insert_path, if_neg hroot, hf, if_pos hcur]
          exact hn
        · have hmem : c :: parent ∉ m.map Inode.path := by
            rcases hp with hp | hp | hp
            · exact hp
            · exact absurd hp hroot
            · exact absurd hp hcur
          simp only [insert_path, if_neg hroot, hf, if_neg hcur, List.map_append,
            List.map_cons, List.map_nil]
          exact nodup_snoc hn hmem

/-- Appending an entry that, if a directory, carries a path absent from the
table preserves directory uniqueness. -/
theorem push_dir {m₂ : List Inode} {e : Inode} (hd : DirNodup m₂)
    (he : e.kind = FileType.Directory → e.path ∉ m₂.map Inode.path) :
    DirNodup (m₂ ++ [e]) := by
  intro j₁ j₂ x y hx hy hxd hyd hp
  rw [getElem?_snoc] at hx hy
  by_cases h1 : j₁ < m₂.length <;> by_cases h2 : j₂ < m₂.length
  · rw [if_pos h1] at hx
    rw [if_pos h2] at hy
    exact hd j₁ j₂ x y hx hy hxd hyd hp
  · rw [if_pos h1] at hx
    rw [if_neg h2] at hy
    by_cases he2 : j₂ = m₂.length
    · rw [if_pos he2] at hy
      injection hy with hy
      subst hy
      have hxm : x.path ∈ m₂.map Inode.path := List.mem_map_of_mem Inode.path (List.getElem?_mem hx)
      rw [hp] at hxm
      exact absurd hxm (he hyd)
    · rw [if_neg he2] at hy
      exact Option.noConfusion hy
  · rw [if_pos h2] at hy
    rw [if_neg h1] at hx
    by_cases he1 : j₁ = m₂.length
    · rw [if_pos he1] at hx
      injection hx with hx
      subst hx
      have hym : y.path ∈ m₂.map Inode.path := List.mem_map_of_mem Inode.path (List.getElem?_mem hy)
      rw [← hp] at hym
      exact absurd hym (he hxd)
    · rw [if_neg he1] at hx
      exact Option.noConfusion hx
  · rw [if_neg h1] at hx
    rw [if_neg h2] at hy
    by_cases he1 : j₁ = m₂.length <;> by_cases he2 : j₂ = m₂.length
    · omega
    · rw [if_neg he2] at hy
      exact Option.noConfusion hy
    · rw [if_neg he1] at hx
      exact Option.noConfusion hx
    · rw [if_neg he1] at hx
      exact Option.noConfusion hx

/-- Inserting a path preserves directory uniqueness: a new directory entry is
only ever created after the scan for its path failed. -/
theorem insert_path_dir : ∀ (p : List PathComp) (m : List Inode) (k : FileType),
    DirNodup m →
    (k = FileType.Directory →
      (p ∉ m.map Inode.path ∨ p = [PathComp.root] ∨ p = [PathComp.cur])) →
    DirNodup (insert_path m p k).1 := by
  intro p
  induction p with
  | nil =>
    intro m k hd hp
    simp only [insert_path]
    refine push_dir hd ?_
    intro hk
    rcases hp hk with hp1 | hp1 | hp1
    · exact hp1
    · exact absurd hp1 (by simp)
    · exact absurd hp1 (by simp)
  | cons c parent ih =>
    intro m k hd hp
    by_cases hroot : c :: parent = [PathComp.root]
    · simp only [insert_path, if_pos hroot]
      exact hd
    · rcases hf : find_path m parent with _ | i
      · have hpar : parent ∉ m.map Inode.path := by
          intro hmem
          obtain ⟨x, hx, hxp⟩ := List.mem_map.mp hmem
          exact find_path_none hf x hx hxp
        have hd₂ := ih m FileType.Directory hd (fun _ => Or.inl hpar)
        by_cases hcur : c :: parent = [PathComp.cur]
        · simp only [insert_path, if_neg hroot, hf, if_pos hcur]
          exact hd₂
        · simp only [insert_path, if_neg hroot, hf, if_neg hcur]
          refine push_dir hd₂ ?_
          intro hk hmem
          rcases insert_path_sub parent m FileType.Directory _ hmem with hold | hsuf
          · rcases hp hk with hp1 | hp1 | hp1
            · exact hp1 hold
            · exact hroot hp1
            · exact hcur hp1
          · have := hsuf.length_le
            simp at this
      · by_cases hcur : c :: parent = [PathComp.cur]
        · simp only [insert_path, if_neg hroot, hf, if_pos hcur]
          exact hd
        · simp only [insert_path, if_neg hroot, hf, if_neg hcur]
          refine push_dir hd ?_
          intro hk hmem
          rcases hp hk with hp1 | hp1 | hp1
          · exact hp1 hmem
          · exact hroot hp1
          · exact hcur hp1

/-! ### The invariants hold for every built table -/

theorem wf_root : Wf [root_inode] := by
  constructor
  · rfl
  · intro j x hx hj
    have h1 : (1 : Nat) ≤ j := hj
    rw [List.getElem?_eq_none (by simpa using h1)] at hx
    exact Option.noConfusion hx

/-- Every path of a table produced by the insertion fold was present
initially or is an ancestor of some inserted path. -/
theorem build_loop_sub : ∀ (ps : List (List PathComp)) (m : List Inode),
    ∀ q ∈ (ps.foldl ins_file m).map Inode.path,
      q ∈ m.map Inode.path ∨ ∃ p ∈ ps, q <:+ p := by
  intro ps
  induction ps with
  | nil => intro m q hq; exact Or.inl hq
  | cons p ps ih =>
    intro m q hq
    rcases ih (ins_file m p) q hq with hold | ⟨p', hp', hsuf⟩
    · rcases insert_path_sub p m FileType.RegularFile q hold with hold2 | hsuf
      · exact Or.inl hold2
      · exact Or.inr ⟨p, List.mem_cons_self p ps, hsuf⟩
    · exact Or.inr ⟨p', List.mem_cons_of_mem p hp', hsuf⟩

theorem build_loop_wf : ∀ (ps : List (List PathComp)) (m : List Inode),
    (∀ p ∈ ps, p ≠ []) → Wf m → Wf (ps.foldl ins_file m) := by
  intro ps
  induction ps with
  | nil => intro m _ hw; exact hw
  | cons p ps ih =>
    intro m hne hw
    exact ih _ (fun q hq => hne q (List.mem_cons_of_mem p hq))
      (insert_path_wf p m FileType.RegularFile (hne p (List.mem_cons_self p ps)) hw).2.1

theorem build_loop_link : ∀ (ps : List (List PathComp)) (m : List Inode),
    Wf m → WfL m →
    (∀ p ∈ ps, p ≠ [] ∧ PathComp.root ∉ p ∧ PathComp.cur ∉ p) →
    WfL (ps.foldl ins_file m) := by
  intro ps
  induction ps with
  | nil => intro m _ hl _; exact hl
  | cons p ps ih =>
    intro m hw hl h
    obtain ⟨hne, hroot, hcur⟩ := h p (List.mem_cons_self p ps)
    exact ih _ (insert_path_wf p m FileType.RegularFile hne hw).2.1
      (insert_path_link p m FileType.RegularFile hw hl hne hroot hcur).1
      (fun q hq => h q (List.mem_cons_of_mem p hq))

theorem build_loop_dir : ∀ (ps : List (List PathComp)) (m : List Inode),
    DirNodup m → DirNodup (ps.foldl ins_file m) := by
  intro ps
  induction ps with
  | nil => intro m hd; exact hd
  | cons p ps ih =>
    intro m hd
    exact ih _ (insert_path_dir p m FileType.RegularFile hd
      (fun hk => FileType.noConfusion hk))

theorem build_loop_nodup : ∀ (ps : List (List PathComp)) (m : List Inode),
    (m.map Inode.path).Nodup →
    (∀ q ∈ m.map Inode.path, ∀ p ∈ ps,
      ¬(p ≠ [PathComp.root] ∧ p ≠ [PathComp.cur] ∧ p <:+ q)) →
    ps.Pairwise (fun a b => ¬ b <:+ a) →
    ((ps.foldl ins_file m).map Inode.path).Nodup := by
  intro ps
  induction ps with
  | nil => intro m hn _ _; exact hn
  | cons p ps ih =>
    intro m hn hinv hpw
    rcases List.pairwise_cons.mp hpw with ⟨hhead, htail⟩
    have hstep : p ∉ m.map Inode.path ∨ p = [PathComp.root] ∨ p = [PathComp.cur] := by
      by_cases h0 : p = [PathComp.root]
      · exact Or.inr (Or.inl h0)
      · by_cases h1 : p = [PathComp.cur]
        · exact Or.inr (Or.inr h1)
        · refine Or.inl ?_
          intro hmem
          exact hinv p hmem p (List.mem_cons_self p ps) ⟨h0, h1, List.suffix_refl p⟩
    refine ih _ (insert_path_nodup p m FileType.RegularFile hn hstep) ?_ htail
    intro q hq p' hp' hcond
    rcases insert_path_sub p m FileType.RegularFile q hq with hold | hqp
    · exact hinv q hold p' (List.mem_cons_of_mem p hp') hcond
    · exact hhead p' hp' (hcond.2.2.trans hqp)

/-- Every parsed path of a listing output is non-empty. -/
theorem listingPaths_ne_nil (stdout : String) :
    ∀ p ∈ listingPaths stdout, p ≠ [] := by
  intro p hp
  obtain ⟨line, hline, rfl⟩ := List.mem_map.mp hp
  have : line ≠ [] := by
    have := List.mem_filter.mp hline
    simpa using this.2
  exact parse_path_ne_nil this

/-- Every table built from a listing output is well formed. -/
theorem items_wf (stdout : String) : Wf (items stdout) :=
  build_loop_wf (listingPaths stdout) [root_inode] (listingPaths_ne_nil stdout) wf_root

/-- Every built table carries at most one directory entry per path. -/
theorem items_dir (stdout : String) : DirNodup (items stdout) := by
  refine build_loop_dir (listingPaths stdout) [root_inode] ?_
  intro j₁ j₂ x y hx hy _ _ _
  have h1 : j₁ < 1 := by simpa using getElem?_some_lt hx
  have h2 : j₂ < 1 := by simpa using getElem?_some_lt hy
  omega

/-- Every path of a built table is empty (the sentinel) or an ancestor of
some listed path. -/
theorem items_sub (stdout : String) :
    ∀ q ∈ (items stdout).map Inode.path,
      q = [] ∨ ∃ p ∈ listingPaths stdout, q <:+ p := by
  intro q hq
  rcases build_loop_sub (listingPaths stdout) [root_inode] q hq with hold | hout
  · exact Or.inl (by simpa using hold)
  · exact Or.inr hout

/-- If no listed path carries a root or leading-dot component, the table
satisfies the parent-link invariant. -/
theorem items_link (stdout : String)
    (h : ∀ p ∈ listingPaths stdout, PathComp.root ∉ p ∧ PathComp.cur ∉ p) :
    WfL (items stdout) := by
  refine build_loop_link (listingPaths stdout) [root_inode] wf_root ?_ ?_
  · intro j x hx hj
    have h1 : (1 : Nat) ≤ j := hj
    rw [List.getElem?_eq_none (by simpa using h1)] at hx
    exact Option.noConfusion hx
  · intro p hp
    exact ⟨listingPaths_ne_nil stdout p hp, (h p hp).1, (h p hp).2⟩

/-- If the listed paths are pairwise distinct and none is an ancestor of an
earlier one, the table's paths are duplicate-free. -/
theorem items_nodup (stdout : String)
    (h : (listingPaths stdout).Pairwise (fun a b => ¬ b <:+ a)) :
    ((items stdout).map Inode.path).Nodup := by
  refine build_loop_nodup (listingPaths stdout) [root_inode] (by simp) ?_ h
  intro q hq p hp hcond
  rcases List.mem_singleton.mp (by simpa using hq) with rfl
  exact listingPaths_ne_nil stdout p hp (List.suffix_nil.mp hcond.2.2)

/-- If no listed path carries a root or leading-dot component, every
non-root entry's path starts with a normal name or `..`. -/
theorem items_heads_ok (stdout : String)
    (h : ∀ p ∈ listingPaths stdout, PathComp.root ∉ p ∧ PathComp.cur ∉ p) :
    HeadsOk (items stdout) := by
  intro j x hx hj
  have hne : x.path ≠ [] := ((items_wf stdout).2 j x hx hj).1
  have hmem : x.path ∈ (items stdout).map Inode.path :=
    List.mem_map_of_mem Inode.path (List.getElem?_mem hx)
  rcases items_sub stdout x.path hmem with hnil | ⟨p, hp, hsuf⟩
  · exact absurd hnil hne
  · match hxp : x.path, hne with
    | c :: rest, _ =>
      have hc : c ∈ p := hsuf.sublist.subset (hxp ▸ List.mem_cons_self c rest)
      match c with
      | PathComp.root => exact absurd hc (h p hp).1
      | PathComp.cur => exact absurd hc (h p hp).2
      | PathComp.up => exact Or.inr ⟨rest, rfl⟩
      | PathComp.name s => exact Or.inl ⟨s, rest, rfl⟩

/-- If every component of every listed path is a normal name, every entry
matching a real parent id (at least 1) has a defined file name; this is what
keeps the lookup scan from aborting. -/
theorem items_scan_safe (stdout : String)
    (hnames : ∀ p ∈ listingPaths stdout, ∀ c ∈ p, ∃ s, c = PathComp.name s)
    {parent : Nat} (hp : 1 ≤ parent) :
    ∀ x ∈ items stdout, x.parent_inode = parent →
      ∃ s, comp_file_name x.path = some s := by
  intro x hx hxp
  obtain ⟨j, hj⟩ := List.getElem?_of_mem hx
  match j with
  | 0 =>
    rw [(items_wf stdout).1] at hj
    injection hj with hj
    rw [← hj] at hxp
    simp [root_inode] at hxp
    omega
  | j + 1 =>
    have hne : x.path ≠ [] := ((items_wf stdout).2 (j + 1) x hj (by omega)).1
    have hmem : x.path ∈ (items stdout).map Inode.path :=
      List.mem_map_of_mem Inode.path (List.getElem?_mem hj)
    rcases items_sub stdout x.path hmem with hnil | ⟨p, hpmem, hsuf⟩
    · exact absurd hnil hne
    · match hxpath : x.path, hne with
      | c :: rest, _ =>
        have hc : c ∈ p := hsuf.sublist.subset (hxpath ▸ List.mem_cons_self c rest)
        obtain ⟨s, rfl⟩ := hnames p hpmem c hc
        exact ⟨s, rfl⟩

/-- In a well-formed, link-correct, duplicate-free table whose entries'
paths start with a name or `..`, the pair (parent id, file name) determines
the table position. -/
theorem child_key_inj {m : List Inode} (hw : Wf m) (hl : WfL m)
    (hnd : (m.map Inode.path).Nodup) (hh : HeadsOk m) :
    ∀ (j₁ j₂ : Nat) (x y : Inode), m[j₁]? = some x → m[j₂]? = some y →
      x.parent_inode = y.parent_inode →
      comp_file_name x.path = comp_file_name y.path → j₁ = j₂ := by
  have key : ∀ (j₁ j₂ : Nat) (x y : Inode), m[j₁]? = some x → m[j₂]? = some y →
      x.parent_inode = y.parent_inode → comp_file_name x.path = comp_file_name y.path →
      1 ≤ j₁ → 1 ≤ j₂ → j₁ = j₂ := by
    intro j₁ j₂ x y hx hy hpar hname h1 h2
    obtain ⟨y₁, hy₁, hy₁p⟩ := hl j₁ x hx h1
    obtain ⟨y₂, hy₂p', hy₂⟩ : ∃ y₂, m[y.parent_inode - 1]? = some y₂ ∧ y₂.path = y.path.tail :=
      hl j₂ y hy h2
    rw [hpar] at hy₁
    rw [hy₁] at hy₂p'
    injection hy₂p' with hy₂p'
    have htail : x.path.tail = y.path.tail := by rw [← hy₁p, hy₂p', hy₂]
    have hpath : x.path = y.path := by
      rcases hh j₁ x hx h1 with ⟨s, tx, hxs⟩ | ⟨tx, hxs⟩
      · have hys : comp_file_name y.path = some s := by
          rw [← hname, hxs]
          rfl
        obtain ⟨ty, hys2⟩ := comp_file_name_eq_some hys
        rw [hxs, hys2]
        rw [hxs, hys2] at htail
        simp at htail
        rw [htail]
      · rcases hh j₂ y hy h2 with ⟨s, ty, hys⟩ | ⟨ty, hys⟩
        · rw [hxs, hys] at hname
          exact absurd hname (by simp [comp_file_name])
        · rw [hxs, hys]
          rw [hxs, hys] at htail
          simp at htail
          rw [htail]
    have hm1 : (m.map Inode.path)[j₁]? = some x.path := by
      rw [List.getElem?_map, hx]
      rfl
    have hm2 : (m.map Inode.path)[j₂]? = some x.path := by
      rw [List.getElem?_map, hy, hpath]
      rfl
    exact nodup_index_inj hnd hm1 hm2
  intro j₁ j₂ x y hx hy hpar hname
  match j₁, j₂ with
  | 0, 0 => rfl
  | 0, j₂ + 1 =>
    rw [hw.1] at hx
    injection hx with hx
    have := (hw.2 (j₂ + 1) y hy (by omega)).2.1
    rw [← hx] at hpar
    simp [root_inode] at hpar
    omega
  | j₁ + 1, 0 =>
    rw [hw.1] at hy
    injection hy with hy
    have := (hw.2 (j₁ + 1) x hx (by omega)).2.1
    rw [← hy] at hpar
    simp [root_inode] at hpar
    omega
  | j₁ + 1, j₂ + 1 =>
    exact key _ _ x y hx hy hpar hname (by omega) (by omega)

/-- A successful `find_child` really is the first match. -/
theorem find_child_some_spec : ∀ (l : List Inode) (parent : Nat) (name : String)
    (j : Nat) (x : Inode), find_child l parent name = some (j, x) →
    l[j]? = some x ∧ x.parent_inode = parent ∧ comp_file_name x.path = some name ∧
    ∀ t, t < j → ∀ z, l[t]? = some z →
      ¬(z.parent_inode = parent ∧ comp_file_name z.path = some name) := by
  intro l
  induction l with
  | nil => intro parent name j x h; exact Option.noConfusion h
  | cons a rest ih =>
    intro parent name j x h
    by_cases hc : a.parent_inode = parent ∧ comp_file_name a.path = some name
    · rw [find_child, if_pos hc] at h
      injection h with h
      cases h
      exact ⟨List.getElem?_cons_zero, hc.1, hc.2, fun t ht => by omega⟩
    · rw [find_child, if_neg hc] at h
      rcases hmap : find_child rest parent name with _ | ji
      · rw [hmap] at h
        exact Option.noConfusion h
      · rw [hmap] at h
        injection h with h
        rcases ji with ⟨j', x'⟩
        cases h
        obtain ⟨h1, h2, h3, h4⟩ := ih parent name j' x' hmap
        refine ⟨by simpa [List.getElem?_cons_succ] using h1, h2, h3, ?_⟩
        intro t ht z hz
        match t with
        | 0 =>
          rw [List.getElem?_cons_zero] at hz
          injection hz with hz
          cases hz
          exact hc
        | t + 1 =>
          rw [List.getElem?_cons_succ] at hz
          exact h4 t (by omega) z hz

/-- A failing `find_child` means no entry matches. -/
theorem find_child_none : ∀ (l : List Inode) (parent : Nat) (name : String),
    find_child l parent name = none ↔
      ∀ x ∈ l, ¬(x.parent_inode = parent ∧ comp_file_name x.path = some name) := by
  intro l
  induction l with
  | nil => intro parent name; simp [find_child]
  | cons a rest ih =>
    intro parent name
    by_cases hc : a.parent_inode = parent ∧ comp_file_name a.path = some name
    · simp [find_child, hc]
    · rw [find_child, if_neg hc]
      constructor
      · intro h x hx
        rcases List.mem_cons.mp hx with rfl | hxr
        · exact hc
        · rcases hmap : find_child rest parent name with _ | ji
          · exact (ih parent name).mp hmap x hxr
          · rw [hmap] at h
            exact Option.noConfusion h
      · intro h
        have hn := (ih parent name).mpr (fun x hx => h x (List.mem_cons_of_mem a hx))
        rw [hn]
        rfl

/-- The lookup scan agrees with the first-match description whenever every
entry matching the parent has a defined file name. -/
theorem lookup_scan_spec : ∀ (l : List Inode) (i parent : Nat) (name : String),
    (∀ x ∈ l, x.parent_inode = parent → ∃ s, comp_file_name x.path = some s) →
    lookup_scan l i parent name =
      (match find_child l parent name with
       | some ji => some (Except.ok (attr (i + ji.1 + 1) ji.2.kind))
       | none => some (Except.error ())) := by
  intro l
  induction l with
  | nil => intro i parent name _; rfl
  | cons a rest ih =>
    intro i parent name hsafe
    have hrest : ∀ x ∈ rest, x.parent_inode = parent → ∃ s, comp_file_name x.path = some s :=
      fun x hx => hsafe x (List.mem_cons_of_mem a hx)
    by_cases hpx : a.parent_inode = parent
    · obtain ⟨s, hs⟩ := hsafe a (List.mem_cons_self a rest) hpx
      by_cases hsn : s = name
      · have hcond : a.parent_inode = parent ∧ comp_file_name a.path = some name := by
          rw [hsn] at hs
          exact ⟨hpx, hs⟩
        rw [lookup_scan, if_pos hpx, hs]
        rw [find_child, if_pos hcond]
        dsimp only
        simp [hsn]
      · have hcond : ¬(a.parent_inode = parent ∧ comp_file_name a.path = some name) := by
          intro hcc
          rw [hs] at hcc
          injection hcc.2 with hne
          exact hsn hne
        rw [lookup_scan, if_pos hpx, hs]
        dsimp only
        rw [if_neg hsn]
        rw [find_child, if_neg hcond]
        rw [ih (i + 1) parent name hrest]
        rcases hmap : find_child rest parent name with _ | ji
        · rfl
        · have harith : i + 1 + ji.1 + 1 = i + (ji.1 + 1) + 1 := by omega
          simp [hmap, harith]
    · have hcond : ¬(a.parent_inode = parent ∧ comp_file_name a.path = some name) :=
        fun hcc => hpx hcc.1
      rw [lookup_scan, if_neg hpx]
      rw [find_child, if_neg hcond]
      rw [ih (i + 1) parent name hrest]
      rcases hmap : find_child rest parent name with _ | ji
      · rfl
      · have harith : i + 1 + ji.1 + 1 = i + (ji.1 + 1) + 1 := by omega
        simp [hmap, harith]

/-- On values inside the i64 range the wrap-around is the identity. -/
theorem i64_wrap_eq {x : Int} (h1 : -(2 ^ 63) ≤ x) (h2 : x < 2 ^ 63) :
    i64_wrap x = x := by
  have e63 : (2 : Int) ^ 63 = 9223372036854775808 := by norm_num
  have e64 : (2 : Int) ^ 64 = 18446744073709551616 := by norm_num
  unfold i64_wrap
  rw [e63, e64] at *
  rw [Int.emod_eq_of_lt (by omega) (by omega)]
  omega

/-- For an in-range id and i64-representable bounds, `fs_read` replies with
exactly the clamped sub-range of the transform output and performs one
transform invocation next to its one listing invocation. -/
theorem read_in_range (stdout : String) (tf : List PathComp → List Nat) (ino : Nat)
    (offset : Int) (size : Nat) (h1 : 1 ≤ ino) (h2 : ino ≤ (items stdout).length)
    (h3 : -(2 ^ 63) ≤ offset) (h4 : offset + (size : Int) < 2 ^ 63) :
    ∃ x, (items stdout)[ino - 1]? = some x ∧
      fs_read stdout tf ino offset size =
        (some (Except.ok (read_range (tf x.path) offset size)),
         { listing := 1, transform := 1 }) := by
  match ino, h1 with
  | n + 1, _ =>
    have hn : n < (items stdout).length := by omega
    have hx : (items stdout)[n + 1 - 1]? = some (items stdout)[n] := by
      simp only [Nat.add_sub_cancel]
      exact List.getElem?_eq_getElem hn
    refine ⟨(items stdout)[n], hx, ?_⟩
    have hwrap : i64_wrap (offset + (size : Int)) = offset + (size : Int) :=
      i64_wrap_eq (by omega) h4
    dsimp only [fs_read]
    rw [if_neg (by omega : ¬ n + 1 > (items stdout).length), hx]
    dsimp only
    rw [hwrap]
    set d := tf (items stdout)[n].path with hd
    have hminle : min ((d.length : Int) - 1) offset ≤ min (d.length : Int) (offset + (size : Int)) :=
      min_le_min (by omega) (by omega)
    have hle : max (min ((d.length : Int) - 1) offset) 0 ≤
        max (min (d.length : Int) (offset + (size : Int))) 0 :=
      max_le_max hminle (le_refl 0)
    rw [if_pos (by omega : (max (min ((d.length : Int) - 1) offset) 0).toNat ≤
      (max (min (d.length : Int) (offset + (size : Int))) 0).toNat)]
    have e1 : max (min (d.length : Int) (offset + (size : Int))) 0 =
        clampI (offset + (size : Int)) 0 (d.length : Int) := by
      rw [clampI, min_comm, max_comm]
    have e2 : max (min ((d.length : Int) - 1) offset) 0 =
        clampI offset 0 ((d.length : Int) - 1) := by
      rw [clampI, min_comm, max_comm]
    rw [e1, e2, read_range]

/-- Filtering before a `filterMap` is the same as guarding the mapped
function. -/
theorem filterMap_filter_decide {α β : Type} (p : α → Prop) [DecidablePred p]
    (f : α → Option β) :
    ∀ l : List α, (l.filter (fun a => decide (p a))).filterMap f =
      l.filterMap (fun a => if p a then f a else none) := by
  intro l
  induction l with
  | nil => rfl
  | cons a t ih =>
    by_cases hp : p a
    · simp [List.filter_cons, hp, List.filterMap_cons, ih]
    · simp [List.filter_cons, hp, List.filterMap_cons, ih]

/-- For an in-range id and a non-negative i64 offset, `readdir` emits exactly
the specification's entry list. -/
theorem readdir_in_range (stdout : String) (ino : Nat) (offset : Int)
    (h1 : ino ≤ (items stdout).length) (h2 : 0 ≤ offset) (h3 : offset < 2 ^ 63) :
    readdir stdout ino offset =
      (Except.ok (readdir_spec (items stdout) ino offset.toNat),
       { listing := 1, transform := 0 }) := by
  have husize : usize_of_int offset = offset.toNat := by
    unfold usize_of_int
    rw [Int.emod_eq_of_lt h2 (by nlinarith [(by norm_num : (2:Int) ^ 63 < 2 ^ 64)])]
  dsimp only [readdir]
  rw [if_neg (by omega), husize]
  dsimp only [readdir_spec]
  rw [filterMap_filter_decide (fun ix => ix.2.parent_inode = ino)
    (fun ix => (comp_file_name ix.2.path).map (fun name => (ix.1 + 1, ix.2.kind, name)))
    (items stdout).enum]
  rw [List.map_drop]

/-- A name component, pinned down. -/
theorem comp_is_name_eq {c : PathComp} (h : comp_is_name c = true) :
    ∃ s, c = PathComp.name s := by
  match c with
  | PathComp.root => exact Bool.noConfusion h
  | PathComp.cur => exact Bool.noConfusion h
  | PathComp.up => exact Bool.noConfusion h
  | PathComp.name s => exact ⟨s, rfl⟩

/-! ### The claims -/

/-- Claim C1, counterexample: for a file whose transform output has length
10, `read(id, offset=15, size=5)` does not return an empty byte range — it
returns the final byte, because the lower bound is clamped to `len - 1`, not
`len`. -/
theorem claim_C1_counterexample :
    (fs_read "a" tf10 2 15 5).1 = some (Except.ok [9]) ∧
    (some (Except.ok [9]) : Option (Except Unit (List Nat))) ≠ some (Except.ok []) :=
  ⟨by decide, by decide⟩

/-- Claim C1 (amended): for every in-range id, provided `offset` and
`offset + size` are representable in i64 (so that no overflow occurs), read
returns the sub-range `[clamp(offset, 0, len-1), clamp(offset+size, 0, len)]`
of the transform output with no error; on a length-10 output,
`offset=15, size=5` yields the final byte and `offset=8, size=5` the final
two bytes. -/
theorem claim_C1_read_clamping :
    (∀ (stdout : String) (tf : List PathComp → List Nat) (ino : Nat)
        (offset : Int) (size : Nat),
      1 ≤ ino → ino ≤ (items stdout).length → -(2 ^ 63) ≤ offset →
      offset + (size : Int) < 2 ^ 63 →
      ∃ x, (items stdout)[ino - 1]? = some x ∧
        fs_read stdout tf ino offset size =
          (some (Except.ok (read_range (tf x.path) offset size)),
           { listing := 1, transform := 1 })) ∧
    (fs_read "a" tf10 2 15 5).1 = some (Except.ok [9]) ∧
    (fs_read "a" tf10 2 8 5).1 = some (Except.ok [8, 9]) :=
  ⟨read_in_range, by decide, by decide⟩

/-- Claim C1, witness: the amended statement applied to the listing "a",
the ten-byte transform, id 2, offset 8, size 5. -/
theorem claim_C1_witness :
    ∃ x, (items "a")[2 - 1]? = some x ∧
      fs_read "a" tf10 2 8 5 =
        (some (Except.ok (read_range (tf10 x.path) 8 5)),
         { listing := 1, transform := 1 }) :=
  claim_C1_read_clamping.1 "a" tf10 2 8 5 (by decide) (by decide) (by decide) (by decide)

/-- Claim C2, counterexample: the listing output "a/b" then "a" repeats no
line verbatim, yet the built table holds two inodes — the directory
synthesized for the ancestor `a` (position 1) and the listed leaf `a`
(position 3) — with the same parent id 1 and the same file name "a". -/
theorem claim_C2_counterexample :
    (listing_lines "a/b\na").Nodup ∧
    ¬ (∀ (j₁ j₂ : Nat) (x y : Inode), (items "a/b\na")[j₁]? = some x →
        (items "a/b\na")[j₂]? = some y → x.parent_inode = y.parent_inode →
        comp_file_name x.path = comp_file_name y.path → j₁ = j₂) := by
  refine ⟨by decide, fun h => ?_⟩
  have h13 := h 1 3 { path := [.name "a"], kind := FileType.Directory, parent_inode := 1 }
    { path := [.name "a"], kind := FileType.RegularFile, parent_inode := 1 }
    (by decide) (by decide) rfl rfl
  exact absurd h13 (by decide)

/-- Claim C2 (amended): if the parsed listed paths are pairwise distinct,
none is an ancestor (path prefix; innermost-first, a list suffix) of an
earlier one, and none contains a root (`/`) or leading-dot (`.`) component,
then no two inodes of the built table share the same (parent id, file name)
pair.  Duplicates arise not only from verbatim repeats but also when a
listed path coincides with an ancestor directory synthesized for an earlier
path — directly, or through the root aliasing that absolute paths introduce
(`/a` and a synthesized `a` both have parent id 1 and file name "a"). -/
theorem claim_C2_unique_child_keys (stdout : String)
    (h1 : (listingPaths stdout).Pairwise (fun a b => ¬ b <:+ a))
    (h2 : ∀ p ∈ listingPaths stdout, PathComp.root ∉ p ∧ PathComp.cur ∉ p) :
    ∀ (j₁ j₂ : Nat) (x y : Inode), (items stdout)[j₁]? = some x →
      (items stdout)[j₂]? = some y → x.parent_inode = y.parent_inode →
      comp_file_name x.path = comp_file_name y.path → j₁ = j₂ :=
  child_key_inj (items_wf stdout) (items_link stdout h2) (items_nodup stdout h1)
    (items_heads_ok stdout h2)

/-- Claim C2, witness: the amended statement applied to the listing
"a/b" then "a/c" at position 2. -/
theorem claim_C2_witness :
    (items "a/b\na/c")[2]? =
      some { path := [.name "b", .name "a"], kind := FileType.RegularFile, parent_inode := 2 } ∧
    (2 : Nat) = 2 :=
  ⟨by decide,
   claim_C2_unique_child_keys "a/b\na/c" (by decide) (by decide) 2 2
     { path := [.name "b", .name "a"], kind := FileType.RegularFile, parent_inode := 2 }
     { path := [.name "b", .name "a"], kind := FileType.RegularFile, parent_inode := 2 }
     (by decide) (by decide) rfl rfl⟩

/-- Claim C3, counterexample: an in-range `getattr` performs two listing
invocations, not one (the handler rebuilds the table a second time when
indexing it); and an out-of-range `read` performs no transform invocation. -/
theorem claim_C3_counterexample :
    (getattr "a" 1).2 = { listing := 2, transform := 0 } ∧ (2 : Nat) ≠ 1 ∧
    (fs_read "a" tf10 5 0 1).2 = { listing := 1, transform := 0 } ∧ (0 : Nat) ≠ 1 :=
  ⟨by decide, by decide, by decide, by decide⟩

/-- Claim C3 (amended): lookup and readdir perform exactly one listing
invocation and no transform invocation; getattr performs one listing
invocation when the id is out of range and two when it is in range; read
performs exactly one listing invocation, plus exactly one transform
invocation when the id is in range (1 ≤ id ≤ table size) and none
otherwise. -/
theorem claim_C3_invocation_counts (stdout : String) (parent ino : Nat)
    (name : String) (offset : Int) (size : Nat) (tf : List PathComp → List Nat) :
    (lookup stdout parent name).2 = { listing := 1, transform := 0 } ∧
    (readdir stdout ino offset).2 = { listing := 1, transform := 0 } ∧
    (getattr stdout ino).2 =
      (if ino ≤ (items stdout).length then
        ({ listing := 2, transform := 0 } : Counts)
       else { listing := 1, transform := 0 }) ∧
    (fs_read stdout tf ino offset size).2 =
      { listing := 1,
        transform := if 1 ≤ ino ∧ ino ≤ (items stdout).length then 1 else 0 } := by
  refine ⟨rfl, ?_, ?_, ?_⟩
  · dsimp only [readdir]
    split
    · rfl
    · rfl
  · dsimp only [getattr]
    by_cases h : ino ≤ (items stdout).length
    · rw [if_pos h, if_pos h]
      match ino with
      | 0 => rfl
      | n + 1 =>
        rcases hx : (items stdout)[n + 1 - 1]? with _ | x
        · rfl
        · rfl
    · rw [if_neg h, if_neg h]
  · dsimp only [fs_read]
    by_cases h : ino > (items stdout).length
    · rw [if_pos h, if_neg (by omega : ¬ (1 ≤ ino ∧ ino ≤ (items stdout).length))]
    · rw [if_neg h]
      match ino with
      | 0 => rw [if_neg (by omega : ¬ (1 ≤ 0 ∧ 0 ≤ (items stdout).length))]
      | n + 1 =>
        have hx : (items stdout)[n + 1 - 1]? = some (items stdout)[n] := by
          simp only [Nat.add_sub_cancel]
          exact List.getElem?_eq_getElem (by omega)
        rw [hx, if_pos (by omega : 1 ≤ n + 1 ∧ n + 1 ≤ (items stdout).length)]
        dsimp only
        split
        · rfl
        · rfl

/-- Claim C4: for listing output ["a/b/c"] the built table holds, after the
sentinel root (id 1), exactly three entries in order — `a` (Directory,
parent the root, first pushed record so id 2), `a/b` (Directory, parent
`a`), `a/b/c` (RegularFile, parent `a/b`) — and `lookup(1, "a")` resolves to
the `a` entry's id 2.  Components are written innermost-first:
`[.name "b", .name "a"]` is the path `a/b`. -/
theorem claim_C4_ancestor_synthesis :
    items "a/b/c" =
      [root_inode,
       { path := [.name "a"], kind := FileType.Directory, parent_inode := 1 },
       { path := [.name "b", .name "a"], kind := FileType.Directory, parent_inode := 2 },
       { path := [.name "c", .name "b", .name "a"], kind := FileType.RegularFile,
         parent_inode := 3 }] ∧
    (lookup "a/b/c" 1 "a").1 = some (Except.ok (attr 2 FileType.Directory)) :=
  ⟨by decide, by decide⟩

/-- Claim C5: in every built table, at most one directory entry exists per
path (an ancestor is synthesized only when the lookup-by-path scan fails,
and later insertions reuse it); in particular listing ["a/x", "a/y"] creates
exactly one `a` directory, and `readdir(2, 0)` on it yields `.`, `..`, `x`,
`y` with no duplicate `a`. -/
theorem claim_C5_directory_reuse :
    (∀ (stdout : String) (j₁ j₂ : Nat) (x y : Inode),
        (items stdout)[j₁]? = some x → (items stdout)[j₂]? = some y →
        x.kind = FileType.Directory → y.kind = FileType.Directory →
        x.path = y.path → j₁ = j₂) ∧
    items "a/x\na/y" =
      [root_inode,
       { path := [.name "a"], kind := FileType.Directory, parent_inode := 1 },
       { path := [.name "x", .name "a"], kind := FileType.RegularFile, parent_inode := 2 },
       { path := [.name "y", .name "a"], kind := FileType.RegularFile, parent_inode := 2 }] ∧
    readdir "a/x\na/y" 2 0 =
      (Except.ok [(2, 1, FileType.Directory, "."), (2, 2, FileType.Directory, ".."),
                  (3, 3, FileType.RegularFile, "x"), (4, 4, FileType.RegularFile, "y")],
       { listing := 1, transform := 0 }) :=
  ⟨fun stdout => items_dir stdout, by decide, by decide⟩

/-- Claim C5, witness: the universal part applied to the listing
["a/x", "a/y"] at the `a` directory entry, position 1. -/
theorem claim_C5_witness :
    (items "a/x\na/y")[1]? =
      some { path := [.name "a"], kind := FileType.Directory, parent_inode := 1 } ∧
    (1 : Nat) = 1 :=
  ⟨by decide,
   claim_C5_directory_reuse.1 "a/x\na/y" 1 1
     { path := [.name "a"], kind := FileType.Directory, parent_inode := 1 }
     { path := [.name "a"], kind := FileType.Directory, parent_inode := 1 }
     (by decide) (by decide) rfl rfl rfl⟩

/-- Claim C6, counterexample: at the (i64) offset -1 the cast
`offset as usize` wraps to a huge skip count, so readdir on an in-range id
emits nothing, although the claim prescribes the full entry sequence
`.`, `..`, `a` for every offset that precedes it. -/
theorem claim_C6_counterexample :
    (readdir "a" 1 (-1)).1 = Except.ok [] ∧
    ([] : List (Nat × Nat × FileType × String)) ≠
      [(1, 1, FileType.Directory, "."), (1, 2, FileType.Directory, ".."),
       (2, 3, FileType.RegularFile, "a")] :=
  ⟨by decide, by decide⟩

/-- Claim C6 (amended): for every in-range id and every non-negative i64
offset, readdir emits the synthesized sequence — `.` and `..` pointing at
the id followed by every inode whose parent is the id in table order with
its id, kind and file name, those without a file name (the root sentinel, a
`..`-terminated path) being skipped as the handler's `if let` does —
skipping the entries before position `offset` and giving each emitted entry
the cursor position + 1; in particular `readdir(1, 2)` on the root with
entries `.`, `..`, `p`, `q` yields exactly `p`, `q`. -/
theorem claim_C6_readdir_pagination (stdout : String) (ino : Nat) (offset : Int)
    (h1 : ino ≤ (items stdout).length) (h2 : 0 ≤ offset) (h3 : offset < 2 ^ 63) :
    readdir stdout ino offset =
      (Except.ok (readdir_spec (items stdout) ino offset.toNat),
       { listing := 1, transform := 0 }) ∧
    readdir "p\nq" 1 2 =
      (Except.ok [(2, 3, FileType.RegularFile, "p"), (3, 4, FileType.RegularFile, "q")],
       { listing := 1, transform := 0 }) :=
  ⟨readdir_in_range stdout ino offset h1 h2 h3, by decide⟩

/-- Claim C6, witness: the amended statement applied to listing ["p", "q"],
the root id 1 and offset 0. -/
theorem claim_C6_witness :
    readdir "p\nq" 1 0 =
      (Except.ok (readdir_spec (items "p\nq") 1 (0 : Int).toNat),
       { listing := 1, transform := 0 }) :=
  (claim_C6_readdir_pagination "p\nq" 1 0 (by decide) (by decide) (by decide)).1

/-- Claim C7, counterexample: `lookup(0, "a")` aborts instead of reporting
"no such entry": the sentinel root has parent id 0 and no file name, so the
scan's `.expect` fires — although no inode matches (parent 0, name "a") and
the claim therefore prescribes the error reply. -/
theorem claim_C7_counterexample :
    (lookup "a" 0 "a").1 = none ∧
    (∀ x ∈ items "a", ¬(x.parent_inode = 0 ∧ comp_file_name x.path = some "a")) ∧
    (none : Option (Except Unit FileAttr)) ≠ some (Except.error ()) :=
  ⟨by decide, by decide, by decide⟩

/-- Claim C7 (amended): for every parent id at least 1 and every name,
provided every component of every listed path is a normal name (so that no
inode's file name is undefined — a listed `..`, say, would make the scan's
`.expect` abort instead), lookup replies with the id (table position + 1)
and the synthesized attribute record of the first inode, in table order,
whose parent id and file name match, and replies "no such entry" exactly
when no inode matches.  (`find_child` is the first-match function; the
second and third conjuncts pin down that it is the first match and that it
fails exactly when no entry matches.) -/
theorem claim_C7_lookup_first_match (stdout : String) (parent : Nat)
    (name : String) (hp : 1 ≤ parent)
    (hnames : ∀ p ∈ listingPaths stdout, ∀ c ∈ p, comp_is_name c = true) :
    lookup stdout parent name =
      ((match find_child (items stdout) parent name with
        | some ji => some (Except.ok (attr (ji.1 + 1) ji.2.kind))
        | none => some (Except.error ())),
       { listing := 1, transform := 0 }) ∧
    (∀ (j : Nat) (x : Inode), find_child (items stdout) parent name = some (j, x) →
      (items stdout)[j]? = some x ∧ x.parent_inode = parent ∧
      comp_file_name x.path = some name ∧
      ∀ t, t < j → ∀ z, (items stdout)[t]? = some z →
        ¬(z.parent_inode = parent ∧ comp_file_name z.path = some name)) ∧
    (find_child (items stdout) parent name = none ↔
      ∀ x ∈ items stdout, ¬(x.parent_inode = parent ∧ comp_file_name x.path = some name)) := by
  refine ⟨?_, fun j x h => find_child_some_spec (items stdout) parent name j x h,
    find_child_none (items stdout) parent name⟩
  have hsafe : ∀ x ∈ items stdout, x.parent_inode = parent →
      ∃ s, comp_file_name x.path = some s :=
    items_scan_safe stdout
      (fun p hpm c hc => comp_is_name_eq (hnames p hpm c hc)) hp
  unfold lookup
  rw [lookup_scan_spec (items stdout) 0 parent name hsafe]
  rcases hmap : find_child (items stdout) parent name with _ | ji
  · rfl
  · simp

/-- Claim C7, witness: the amended statement applied to the listing "a/b",
parent id 1 and name "a", where lookup resolves the directory `a` to id 2. -/
theorem claim_C7_witness :
    lookup "a/b" 1 "a" =
      (some (Except.ok (attr 2 FileType.Directory)), { listing := 1, transform := 0 }) := by
  have h := (claim_C7_lookup_first_match "a/b" 1 "a" (by decide) (by decide)).1
  rw [h]
  decide

/-- Claim C8, counterexample: `getattr(0)` aborts on the index underflow
`0 - 1` instead of reporting "no such entry", although id 0 lies outside the
table's valid range (ids start at 1) and the claim therefore prescribes the
error reply. -/
theorem claim_C8_counterexample :
    (getattr "a" 0).1 = none ∧
    (none : Option (Except Unit FileAttr)) ≠ some (Except.error ()) :=
  ⟨by decide, by decide⟩

/-- Claim C8 (amended): for every id at least 1, getattr replies with the
synthesized attribute record for the inode's kind when the id is at most the
table's size, and with "no such entry" when it exceeds it; id 0 instead
aborts the handler. -/
theorem claim_C8_getattr_range (stdout : String) (ino : Nat) (h : 1 ≤ ino) :
    (∀ x, (items stdout)[ino - 1]? = some x →
        getattr stdout ino =
          (some (Except.ok (attr ino x.kind)), { listing := 2, transform := 0 })) ∧
    ((items stdout).length < ino →
        getattr stdout ino =
          (some (Except.error ()), { listing := 1, transform := 0 })) := by
  match ino, h with
  | n + 1, _ =>
    constructor
    · intro x hx
      have hn : n + 1 - 1 < (items stdout).length := getElem?_some_lt hx
      dsimp only [getattr]
      rw [if_pos (by omega : n + 1 ≤ (items stdout).length), hx]
    · intro hlt
      dsimp only [getattr]
      rw [if_neg (by omega)]

/-- Claim C8, witness: the amended statement applied to the listing "a" at
the in-range id 1 (the root) and the out-of-range id 5. -/
theorem claim_C8_witness :
    getattr "a" 1 =
      (some (Except.ok (attr 1 FileType.Directory)), { listing := 2, transform := 0 }) ∧
    getattr "a" 5 =
      (some (Except.error ()), { listing := 1, transform := 0 }) :=
  ⟨(claim_C8_getattr_range "a" 1 (by decide)).1 root_inode (by decide),
   (claim_C8_getattr_range "a" 5 (by decide)).2 (by decide)⟩

/-- Claim C9: in every built table, every non-root inode's parent id is
either 1 (the root) or the id (position + 1) of an inode occupying a
strictly earlier position: directories are inserted before their children. -/
theorem claim_C9_parent_before_child (stdout : String) (j : Nat) (x : Inode)
    (hx : (items stdout)[j]? = some x) (hj : 1 ≤ j) :
    x.parent_inode = 1 ∨
    ∃ (t : Nat) (y : Inode), t + 1 = x.parent_inode ∧ t < j ∧
      (items stdout)[t]? = some y := by
  have hw := items_wf stdout
  have hfacts := hw.2 j x hx hj
  by_cases h1 : x.parent_inode = 1
  · exact Or.inl h1
  · have hjlen : j < (items stdout).length := getElem?_some_lt hx
    have htlen : x.parent_inode - 1 < (items stdout).length := by omega
    exact Or.inr ⟨x.parent_inode - 1, (items stdout)[x.parent_inode - 1], by omega,
      by omega, List.getElem?_eq_getElem htlen⟩

/-- Claim C9, witness: the listing "a/b" at position 2 (the leaf `a/b`,
whose parent is the synthesized directory `a` at position 1, id 2). -/
theorem claim_C9_witness :
    (items "a/b")[2]? =
      some { path := [.name "b", .name "a"], kind := FileType.RegularFile, parent_inode := 2 } ∧
    ((2 : Nat) = 1 ∨
     ∃ (t : Nat) (y : Inode), t + 1 = 2 ∧ t < 2 ∧ (items "a/b")[t]? = some y) :=
  ⟨by decide,
   claim_C9_parent_before_child "a/b" 2
     { path := [.name "b", .name "a"], kind := FileType.RegularFile, parent_inode := 2 }
     (by decide) (by decide)⟩

/-- Claim C10, counterexample: for the in-range directory id 2 (the
synthesized `a` of listing "a/b") and an offset/size pair that overflows
i64 (`offset = 2^63 - 1`, `size = 5`), read aborts on the reversed slice
bounds instead of returning the clamped byte range. -/
theorem claim_C10_counterexample :
    (items "a/b")[1]? =
      some { path := [.name "a"], kind := FileType.Directory, parent_inode := 1 } ∧
    (fs_read "a/b" tf10 2 (2 ^ 63 - 1) 5).1 = none :=
  ⟨by decide, by decide⟩

/-- Claim C10 (amended): for every in-range id whose inode is a directory —
including id 1, the root, whose stored path is empty — and every offset and
size representable in i64 without overflow, read does not report an error:
it invokes the transform collaborator once on the directory's path and
returns the clamped byte range, exactly as it does for regular files. -/
theorem claim_C10_directory_read (stdout : String) (tf : List PathComp → List Nat)
    (ino : Nat) (offset : Int) (size : Nat) (x : Inode) (h0 : 1 ≤ ino)
    (hx : (items stdout)[ino - 1]? = some x) (_hk : x.kind = FileType.Directory)
    (h3 : -(2 ^ 63) ≤ offset) (h4 : offset + (size : Int) < 2 ^ 63) :
    fs_read stdout tf ino offset size =
      (some (Except.ok (read_range (tf x.path) offset size)),
       { listing := 1, transform := 1 }) := by
  have h2 : ino ≤ (items stdout).length := by
    have := getElem?_some_lt hx
    omega
  obtain ⟨y, hy, hres⟩ := read_in_range stdout tf ino offset size h0 h2 h3 h4
  rw [hx] at hy
  injection hy with hy
  rw [← hy] at hres
  exact hres

/-- Claim C10, witness: the amended statement applied to the listing "a/b"
at the root directory (id 1, empty stored path) with offset 0 and size 4. -/
theorem claim_C10_witness :
    fs_read "a/b" tf10 1 0 4 =
      (some (Except.ok (read_range (tf10 root_inode.path) 0 4)),
       { listing := 1, transform := 1 }) :=
  claim_C10_directory_read "a/b" tf10 1 0 4 root_inode (by decide) (by decide)
    (by decide) (by decide) (by decide)
